import Mathlib

/-!
Verification development for the codebase-analysis engine of the
`code-doc-tool` repository (Go).  The engine under study is the
`FileAnalyzer` service: project-type detection, per-ecosystem dependency
extraction, two-pass directory-tree construction, and the file-inventory
walk.  Every definition below is a shallow embedding of the corresponding
Go function, translated clause by clause from the source:

  * `detectProjectType`, `parseDependencies`, `parsePackageJSON`,
    `parseComposerJSON`, `buildDirectoryStructure`, `analyzeFiles`,
    `shouldSkip`, `isCodeFile`, `getLanguage`, `AnalyzeProject`.

Modelling conventions:
  * The filesystem is a finite immutable tree (`FSEntry`).  The archive
    extractor guarantees the root exists and is readable, so walk-level
    I/O errors are not modelled; the only failures are the manifest
    read/parse failures the Go code can hit on such a tree.
  * Go `map` iteration order is unspecified.  Wherever the source ranges
    over a map (the indicator table of `detectProjectType`, the node map
    of the tree builder), the embedding takes the iteration order as an
    explicit parameter, quantified in the theorems.
  * `encoding/json` decoding of a JSON object into a `map[string]string`
    inserts the keys in declaration order, so a duplicated key keeps the
    last value.  `decodeMap` embeds exactly that insertion loop; manifest
    file contents are modelled as the ordered key/value lists of the JSON
    text (`ManifestJson`), `FileContent.invalid` standing for data that
    `json.Unmarshal` rejects.
  * Relative paths are the clean slash-separated strings produced by
    `filepath.Rel`; `filepath.Dir` on such a string drops the last
    slash-separated component ("." for a single component).  Entry names
    are assumed not to contain a slash, as on a real filesystem.
  * `strings.ToLower` is modelled on ASCII, which covers every extension
    in the fixed tables.
  * Go field names that collide with Lean keywords are lower-cased
    (`Type` becomes `type`, `Structure` becomes `struct`).
-/

/-- Content of a regular file, as far as the analyzer inspects it.
`manifest` is any JSON text that `json.Unmarshal` accepts for the
package/composer struct targets; the four lists record the key/value
pairs of the `dependencies`, `devDependencies`, `require` and
`require-dev` objects in declaration order (duplicate keys allowed,
exactly as in the raw JSON).  `invalid` is data `json.Unmarshal`
rejects. -/
structure ManifestJson where
  dependencies : List (String × String)
  devDependencies : List (String × String)
  require : List (String × String)
  requireDev : List (String × String)
deriving DecidableEq, Repr

inductive FileContent where
  | manifest (m : ManifestJson)
  | invalid
deriving DecidableEq, Repr

/-- Filesystem tree under the extracted project root.  `size` models
`os.FileInfo.Size()` (an `int64`).  Children are listed in the lexical
order `filepath.Walk` visits them. -/
inductive FSEntry where
  | file (name : String) (size : Int) (content : FileContent)
  | dir (name : String) (size : Int) (children : List FSEntry)

def FSEntry.name : FSEntry → String
  | .file n _ _ => n
  | .dir n _ _ => n

def FSEntry.isDirB : FSEntry → Bool
  | .file .. => false
  | .dir .. => true

/-- Dependency record (`models.Dependency`): name, version string, and
classification tag (the Go field `Type`). -/
structure Dependency where
  name : String
  version : String
  type : String
deriving DecidableEq, Repr

/-- File-inventory record (`models.FileInfo`). -/
structure FileInfo where
  name : String
  path : String
  extension : String
  size : Int
  language : String
deriving DecidableEq, Repr

/-- Tree node (`models.DirectoryNode`). -/
structure DirectoryNode where
  name : String
  path : String
  isDir : Bool
  size : Int
  children : List DirectoryNode

/-- Analysis result (`models.Project`), restricted to the fields the
analyzer writes (`CreatedAt` is never set and `Path` merely echoes the
input).  The Go field `Structure` is rendered `struct`. -/
structure Project where
  name : String
  type : String
  dependencies : List (String × List Dependency)
  files : List FileInfo
  struct : List DirectoryNode

/-- Errors `AnalyzeProject` can return on a readable tree: a failed
manifest `os.ReadFile` or a failed `json.Unmarshal`. -/
inductive GoErr where
  | readError
  | parseError
deriving DecidableEq, Repr

/-! ## String helpers (slash splitting, extensions, lower-casing) -/

/-- Concatenation of path components with `/`, as `filepath.Rel`
produces for a non-root entry. -/
def joinSlash : List String → String
  | [] => ""
  | [c] => c
  | c :: rest => c ++ "/" ++ joinSlash rest

def splitSlashAux : List Char → List Char → List String
  | acc, [] => [String.mk acc.reverse]
  | acc, c :: rest =>
      if c = '/' then String.mk acc.reverse :: splitSlashAux [] rest
      else splitSlashAux (c :: acc) rest

/-- Split a clean relative path into its slash-separated components. -/
def splitSlash (s : String) : List String :=
  splitSlashAux [] s.data

/-- Relative path of the entry at component list `cs` (root is `[]`),
exactly the string `filepath.Rel(projectPath, path)` yields. -/
def pathStr (cs : List String) : String :=
  if cs = [] then "." else joinSlash cs

/-- Go `filepath.Dir` on a clean relative path: drop the final
component, yielding "." when only one component remains. -/
def dirString (p : String) : String :=
  match (splitSlash p).dropLast with
  | [] => "."
  | cs => joinSlash cs

/-- Go `filepath.Ext(name)`: the suffix starting at the final dot of the
name, empty when the name has no dot. -/
def fileExt (s : String) : String :=
  let r := s.data.reverse
  let pre := r.takeWhile (fun c => !(c = '.' : Bool))
  if pre.length = r.length then "" else "." ++ String.mk pre.reverse

/-- ASCII `strings.ToLower`. -/
def lowerString (s : String) : String :=
  String.mk (s.data.map Char.toLower)

/-- Go `strings.HasPrefix(name, ".")`. -/
def hasDotPrefix (s : String) : Bool :=
  match s.data with
  | [] => false
  | c :: _ => c = '.'

/-! ## Fixed tables of the analyzer -/

/-- Ignore table of `shouldSkip` for directories. -/
def skipDirs : List String :=
  ["node_modules", "vendor", ".git", "dist", "build", "__pycache__"]

/-- Ignore table of `shouldSkip` for files. -/
def skipFiles : List String :=
  [".DS_Store", "Thumbs.db"]

/-- Allow-list of `isCodeFile`. -/
def codeExts : List String :=
  [".js", ".ts", ".jsx", ".tsx", ".vue",
   ".php", ".py", ".go", ".java", ".c", ".cpp",
   ".html", ".css", ".scss", ".sass", ".less",
   ".json", ".xml", ".yaml", ".yml", ".md"]

/-- Language lookup table of `getLanguage` (`langMap` in the source). -/
def langMap : List (String × String) :=
  [(".js", "JavaScript"), (".ts", "TypeScript"), (".jsx", "React"),
   (".tsx", "React TypeScript"), (".vue", "Vue.js"), (".php", "PHP"),
   (".py", "Python"), (".go", "Go"), (".java", "Java"),
   (".html", "HTML"), (".css", "CSS"), (".scss", "SCSS"),
   (".json", "JSON"), (".md", "Markdown")]

/-- Marker-file table of `detectProjectType` (`indicators` in the
source), listed in the textual order of the Go map literal.  The source
stores it in a Go `map[string]string`, so runs may range over it in any
order; theorems quantify over permutations of this list. -/
def indicators : List (String × String) :=
  [("package.json", "Node.js"),
   ("composer.json", "PHP/Laravel"),
   ("requirements.txt", "Python"),
   ("go.mod", "Go"),
   ("pom.xml", "Java/Maven"),
   ("build.gradle", "Java/Gradle"),
   ("Cargo.toml", "Rust"),
   ("pubspec.yaml", "Dart/Flutter")]

/-! ## Classifier and detector -/

/-- Go `shouldSkip(path, info)`: directory names from `skipDirs`, file
names from `skipFiles`, and finally any name with a leading dot. -/
def shouldSkip (isDir : Bool) (name : String) : Bool :=
  (if isDir then skipDirs.contains name else skipFiles.contains name)
    || hasDotPrefix name

/-- Go `isCodeFile(ext)`. -/
def isCodeFile (ext : String) : Bool :=
  codeExts.contains ext

/-- Go `getLanguage(ext)`: table hit returns the label, miss returns
"Unknown". -/
def getLanguage (ext : String) : String :=
  match langMap.lookup ext with
  | some lang => lang
  | none => "Unknown"

/-- Go `os.Stat(filepath.Join(projectPath, fname))` succeeding: some
top-level entry (file or directory) carries that name. -/
def hasTop (root : FSEntry) (fname : String) : Bool :=
  match root with
  | .file .. => false
  | .dir _ _ children => children.any (fun c => c.name = fname)

/-- Go `detectProjectType`, with the `range` order over the indicator
map made explicit: the first entry of `order` whose marker file exists
wins; with none present the result is "Unknown". -/
def detectProjectType (order : List (String × String)) (root : FSEntry) : String :=
  match order with
  | [] => "Unknown"
  | (f, ty) :: rest =>
      if hasTop root f then ty else detectProjectType rest root

/-! ## Dependency extraction -/

/-- Go `os.ReadFile(filepath.Join(projectPath, fname))` on the model
tree: a top-level regular file yields its content, anything else is a
read error. -/
def readTopLevel (root : FSEntry) (fname : String) : Except GoErr FileContent :=
  match root with
  | .file .. => .error .readError
  | .dir _ _ children =>
      match children.find? (fun c => c.name = fname) with
      | some (.file _ _ content) => .ok content
      | some (.dir ..) => .error .readError
      | none => .error .readError

/-- Single key insertion of `encoding/json` object decoding into a Go
`map[string]string`: overwrite an existing key, else add the key. -/
def mapInsert (m : List (String × String)) (k v : String) : List (String × String) :=
  if m.any (fun p => p.1 = k) then
    m.map (fun p => if p.1 = k then (k, v) else p)
  else
    m ++ [(k, v)]

/-- Decoding a JSON object (ordered, duplicates possible) into a Go
`map[string]string`: keys are inserted in declaration order, so a
duplicated key keeps its last value. -/
def decodeMap (l : List (String × String)) : List (String × String) :=
  l.foldl (fun m p => mapInsert m p.1 p.2) []

/-- Go `project.Dependencies[k] = append(project.Dependencies[k], d)` on
the dependency-group map. -/
def depsAppend (m : List (String × List Dependency)) (k : String) (d : Dependency) :
    List (String × List Dependency) :=
  if m.any (fun p => p.1 = k) then
    m.map (fun p => if p.1 = k then (p.1, p.2 ++ [d]) else p)
  else
    m ++ [(k, [d])]

/-- Append every pair of `l` to group `k` with classification tag `k`,
as the two `for name, version := range` loops of the parsers do. -/
def appendGroup (m : List (String × List Dependency)) (k : String)
    (l : List (String × String)) : List (String × List Dependency) :=
  l.foldl (fun acc p => depsAppend acc k ⟨p.1, p.2, k⟩) m

/-- Go `parsePackageJSON`: read `package.json`, unmarshal the
`dependencies` and `devDependencies` objects into maps, append each map
entry under "production" resp. "development". -/
def parsePackageJSON (root : FSEntry) (deps : List (String × List Dependency)) :
    Except GoErr (List (String × List Dependency)) :=
  match readTopLevel root "package.json" with
  | .error e => .error e
  | .ok .invalid => .error .parseError
  | .ok (.manifest m) =>
      .ok (appendGroup (appendGroup deps "production" (decodeMap m.dependencies))
            "development" (decodeMap m.devDependencies))

/-- Go `parseComposerJSON`: same shape over `composer.json` with the
`require` and `require-dev` objects. -/
def parseComposerJSON (root : FSEntry) (deps : List (String × List Dependency)) :
    Except GoErr (List (String × List Dependency)) :=
  match readTopLevel root "composer.json" with
  | .error e => .error e
  | .ok .invalid => .error .parseError
  | .ok (.manifest m) =>
      .ok (appendGroup (appendGroup deps "production" (decodeMap m.require))
            "development" (decodeMap m.requireDev))

/-- Go `parseDependencies`: dispatch on the detected type; the Python
and Go branches are commented out in the source and return nil, as does
the missing default case. -/
def parseDependencies (root : FSEntry) (ty : String)
    (deps : List (String × List Dependency)) :
    Except GoErr (List (String × List Dependency)) :=
  if ty = "Node.js" then parsePackageJSON root deps
  else if ty = "PHP/Laravel" then parseComposerJSON root deps
  else .ok deps

/-! ## Directory-tree builder -/

/-! Pass one of `buildDirectoryStructure`: the `filepath.Walk` that
fills the `nodes` map, in walk order.  A skipped directory returns
`filepath.SkipDir`, pruning its whole subtree; a skipped file creates no
node but leaves its siblings untouched.  The entry with relative path
"." becomes the synthetic root node (directory flag and zero size
hard-coded, children initialised empty); every other entry records its
walk metadata with no children field (Go zero value, the empty slice). -/
mutual
def collectNodes (cs : List String) : FSEntry → List (String × DirectoryNode)
  | .file n sz _ =>
      if shouldSkip false n then []
      else if cs = [] then [(".", ⟨n, ".", true, 0, []⟩)]
      else [(pathStr cs, ⟨n, pathStr cs, false, sz, []⟩)]
  | .dir n sz children =>
      if shouldSkip true n then []
      else if cs = [] then (".", ⟨n, ".", true, 0, []⟩) :: collectNodesList [] children
      else (pathStr cs, ⟨n, pathStr cs, true, sz, []⟩) :: collectNodesList cs children

def collectNodesList (cs : List String) : List FSEntry → List (String × DirectoryNode)
  | [] => []
  | c :: rest => collectNodes (cs ++ [c.name]) c ++ collectNodesList cs rest
end

/-- Parent key computed in pass two: `filepath.Dir(path)`, with the
source replacing a result of "." by "./" before the map lookup. -/
def parentKey (p : String) : String :=
  let d := dirString p
  if d = "." then "./" else d

/-- Update the node stored at `key`, appending `c` to its children, as
the pointer write `parent.Children = append(parent.Children, *node)`
does on the map entry. -/
def attachChild : List (String × DirectoryNode) → String → DirectoryNode →
    List (String × DirectoryNode)
  | [], _, _ => []
  | (k, n) :: rest, key, c =>
      if k = key then (k, { n with children := n.children ++ [c] }) :: rest
      else (k, n) :: attachChild rest key c

/-- One iteration of pass two at map key `q`: the root node is appended
to `project.Structure`; any other node is attached to the entry at its
parent key when that key is present, and silently skipped otherwise. -/
def secondStep (st : List (String × DirectoryNode) × List DirectoryNode)
    (q : String) : List (String × DirectoryNode) × List DirectoryNode :=
  match st.1.lookup q with
  | none => st
  | some v =>
      if q = "." then (st.1, st.2 ++ [v])
      else
        match st.1.lookup (parentKey q) with
        | some _ => (attachChild st.1 (parentKey q) v, st.2)
        | none => st

/-- Go `buildDirectoryStructure`, with the `range` order over the node
map made explicit: pass one collects the flat node map, pass two folds
`secondStep` over the iteration order and returns the accumulated
`project.Structure` list. -/
def buildDirectoryStructure (root : FSEntry) (order : List String) :
    List DirectoryNode :=
  (order.foldl secondStep (collectNodes [] root, [])).2

/-! ## File-inventory walk -/

/-! Go `analyzeFiles`: a fresh `filepath.Walk`.  The callback returns
`err` (nil) for every directory — including ignored ones, whose subtrees
are therefore still descended — and records a file exactly when
`shouldSkip` rejects it and its lower-cased extension is in the
allow-list. -/
mutual
def analyzeFilesFrom (cs : List String) : FSEntry → List FileInfo
  | .dir _ _ children => analyzeFilesList cs children
  | .file n sz _ =>
      if shouldSkip false n then []
      else
        let ext := lowerString (fileExt n)
        if isCodeFile ext then [⟨n, pathStr cs, ext, sz, getLanguage ext⟩]
        else []

def analyzeFilesList (cs : List String) : List FSEntry → List FileInfo
  | [] => []
  | c :: rest => analyzeFilesFrom (cs ++ [c.name]) c ++ analyzeFilesList cs rest
end

def analyzeFiles (root : FSEntry) : List FileInfo :=
  analyzeFilesFrom [] root

/-! ## Orchestrator -/

/-- Go `AnalyzeProject`: detect the type, parse dependencies (an error
aborts with `return nil, err`), build the directory structure, analyze
files, and assemble the record.  `detOrder` and `treeOrder` expose the
iteration orders of the two Go maps the source ranges over. -/
def AnalyzeProject (root : FSEntry) (detOrder : List (String × String))
    (treeOrder : List String) : Except GoErr Project :=
  let ty := detectProjectType detOrder root
  match parseDependencies root ty [] with
  | .error e => .error e
  | .ok deps =>
      .ok { name := root.name, type := ty, dependencies := deps,
            files := analyzeFiles root,
            struct := buildDirectoryStructure root treeOrder }

/-! ## Derived notions used by the claims -/

/-! Flatten a built tree back to the relative paths of its nodes. -/
mutual
def flattenNode : DirectoryNode → List String
  | ⟨_, p, _, _, children⟩ => p :: flattenNodes children

def flattenNodes : List DirectoryNode → List String
  | [] => []
  | c :: rest => flattenNode c ++ flattenNodes rest
end

/-! Path `p` occurs somewhere in the subtree of node `n`. -/
mutual
def occursIn (p : String) : DirectoryNode → Bool
  | ⟨_, q, _, _, children⟩ => p = q || occursInList p children

def occursInList (p : String) : List DirectoryNode → Bool
  | [] => false
  | c :: rest => occursIn p c || occursInList p rest
end

/-! ## Generic association-list lemmas -/

theorem lookup_mem {α β : Type} [BEq α] [LawfulBEq α] :
    ∀ (m : List (α × β)) (k : α) (v : β), m.lookup k = some v → (k, v) ∈ m := by
  intro m
  induction m with
  | nil => intro k v h; simp [List.lookup] at h
  | cons p rest ih =>
      intro k v h
      rcases p with ⟨a, b⟩
      cases hk : (k == a) with
      | false =>
          simp only [List.lookup, hk] at h
          exact List.mem_cons_of_mem _ (ih k v h)
      | true =>
          simp only [List.lookup, hk] at h
          have hka : k = a := eq_of_beq hk
          cases h
          subst hka
          exact List.mem_cons_self _ _

/-! ## Lemmas about the detector -/

theorem detect_unknown_of_absent (root : FSEntry) :
    ∀ (order : List (String × String)),
      (∀ x ∈ order, hasTop root x.1 = false) →
      detectProjectType order root = "Unknown" := by
  intro order
  induction order with
  | nil => intro _; rfl
  | cons x rest ih =>
      intro h
      rcases x with ⟨f, ty⟩
      have hf : hasTop root f = false := h (f, ty) (List.mem_cons_self _ _)
      simp only [detectProjectType, hf, Bool.false_eq_true, if_false]
      exact ih (fun y hy => h y (List.mem_cons_of_mem _ hy))

theorem detect_mem (root : FSEntry) :
    ∀ (order : List (String × String)),
      (∀ x ∈ order, x ∈ indicators) →
      detectProjectType order root ∈ "Unknown" :: indicators.map (fun p => p.2) := by
  intro order
  induction order with
  | nil => intro _; exact List.mem_cons_self _ _
  | cons x rest ih =>
      intro h
      rcases x with ⟨f, ty⟩
      by_cases hf : hasTop root f = true
      · simp only [detectProjectType, hf, if_true]
        have hx : (f, ty) ∈ indicators := h (f, ty) (List.mem_cons_self _ _)
        exact List.mem_cons_of_mem _ (List.mem_map.mpr ⟨(f, ty), hx, rfl⟩)
      · simp only [detectProjectType, hf, if_false]
        exact ih (fun y hy => h y (List.mem_cons_of_mem _ hy))

theorem detect_headD (root : FSEntry) :
    ∀ (order : List (String × String)),
      detectProjectType order root =
        ((order.filter (fun pr => hasTop root pr.1)).map (fun pr => pr.2)).headD "Unknown" := by
  intro order
  induction order with
  | nil => rfl
  | cons x rest ih =>
      rcases x with ⟨f, ty⟩
      by_cases hf : hasTop root f = true
      · simp [detectProjectType, List.filter_cons, hf]
      · simp [detectProjectType, List.filter_cons, hf, ih]

theorem perm_eq_of_length_le_one {α : Type} {l m : List α}
    (h : l.Perm m) (hm : m.length ≤ 1) : l = m := by
  match m, hm with
  | [], _ => exact h.eq_nil
  | [a], _ => exact List.perm_singleton.mp h

/-! ## Claim C8 -/

/-- C8: for every extension string, `getLanguage` returns the mapped
language label when the extension is in the fixed lookup table and the
explicit label "Unknown" otherwise, and it never returns an empty
string. -/
theorem getLanguage_total (ext : String) :
    (∀ lang, langMap.lookup ext = some lang → getLanguage ext = lang) ∧
    (langMap.lookup ext = none → getLanguage ext = "Unknown") ∧
    getLanguage ext ≠ "" := by
  refine ⟨?_, ?_, ?_⟩
  · intro lang h; simp [getLanguage, h]
  · intro h; simp [getLanguage, h]
  · cases h : langMap.lookup ext with
    | none => simp [getLanguage, h]
    | some lang =>
        have hm : ∀ pr ∈ langMap, pr.2 ≠ "" := by decide
        have hne : lang ≠ "" := hm (ext, lang) (lookup_mem langMap ext lang h)
        simp [getLanguage, h, hne]

/-- Witness for C8: a mapped extension and an unmapped one, obtained by
instantiating `getLanguage_total` at concrete inputs. -/
theorem getLanguage_total_witness :
    getLanguage ".js" = "JavaScript" ∧ getLanguage ".zig" = "Unknown" :=
  ⟨(getLanguage_total ".js").1 "JavaScript" rfl, (getLanguage_total ".zig").2.1 rfl⟩

/-! ## Claim C6 -/

/-- C6: for every iteration order of the indicator map and every root,
`detectProjectType` returns exactly one label drawn from the fixed
enumeration of project types plus the "Unknown" sentinel, and never the
empty string.  (Totality and single-valuedness are inherent: the
embedding is a function into `String` with no error outcome, mirroring
the Go function, which only performs `os.Stat` existence checks.) -/
theorem detectProjectType_total (order : List (String × String)) (root : FSEntry)
    (h : order.Perm indicators) :
    detectProjectType order root ∈ "Unknown" :: indicators.map (fun p => p.2) ∧
    detectProjectType order root ≠ "" := by
  have hmem := detect_mem root order (fun x hx => h.mem_iff.mp hx)
  refine ⟨hmem, ?_⟩
  intro hempty
  rw [hempty] at hmem
  revert hmem
  decide

/-- Witness for C6 at the declaration order and an empty root. -/
theorem detectProjectType_total_witness :
    detectProjectType indicators (.dir "project" 0 []) ∈
      "Unknown" :: indicators.map (fun p => p.2) ∧
    detectProjectType indicators (.dir "project" 0 []) ≠ "" :=
  detectProjectType_total indicators _ (List.Perm.refl _)

/-! ## Claim C5 -/

/-- C5 counterexample: with both `package.json` and `composer.json`
present, two admissible iteration orders of the Go indicator map (both
permutations of the table) make `detectProjectType` return different
project types, so marker-tier detection is not deterministic and no
declaration-order tie-break exists. -/
theorem detectProjectType_marker_tie_nondeterministic :
    detectProjectType indicators
        (.dir "p" 0 [.file "package.json" 1 .invalid, .file "composer.json" 1 .invalid])
      = "Node.js" ∧
    detectProjectType
        (("composer.json", "PHP/Laravel") :: ("package.json", "Node.js") ::
          [("requirements.txt", "Python"), ("go.mod", "Go"), ("pom.xml", "Java/Maven"),
           ("build.gradle", "Java/Gradle"), ("Cargo.toml", "Rust"),
           ("pubspec.yaml", "Dart/Flutter")])
        (.dir "p" 0 [.file "package.json" 1 .invalid, .file "composer.json" 1 .invalid])
      = "PHP/Laravel" ∧
    (("composer.json", "PHP/Laravel") :: ("package.json", "Node.js") ::
      [("requirements.txt", "Python"), ("go.mod", "Go"), ("pom.xml", "Java/Maven"),
       ("build.gradle", "Java/Gradle"), ("Cargo.toml", "Rust"),
       ("pubspec.yaml", "Dart/Flutter")]).Perm indicators :=
  ⟨rfl, rfl, List.Perm.swap _ _ _⟩

/-- C5 amended: determinism of marker-tier detection holds exactly when
marker files of at most one table entry are present: then any two
iteration orders of the indicator map return the same type. -/
theorem detectProjectType_deterministic_single_marker (root : FSEntry)
    (o₁ o₂ : List (String × String))
    (h₁ : o₁.Perm indicators) (h₂ : o₂.Perm indicators)
    (hlen : (indicators.filter (fun pr => hasTop root pr.1)).length ≤ 1) :
    detectProjectType o₁ root = detectProjectType o₂ root := by
  have e₁ : o₁.filter (fun pr => hasTop root pr.1)
      = indicators.filter (fun pr => hasTop root pr.1) :=
    perm_eq_of_length_le_one (h₁.filter _) hlen
  have e₂ : o₂.filter (fun pr => hasTop root pr.1)
      = indicators.filter (fun pr => hasTop root pr.1) :=
    perm_eq_of_length_le_one (h₂.filter _) hlen
  rw [detect_headD root o₁, detect_headD root o₂, e₁, e₂]

/-- Witness for the amended C5: with only `package.json` present, the
declaration order and a swapped order agree. -/
theorem detectProjectType_deterministic_single_marker_witness :
    detectProjectType indicators (.dir "w" 0 [.file "package.json" 1 .invalid]) =
    detectProjectType
        (("composer.json", "PHP/Laravel") :: ("package.json", "Node.js") ::
          [("requirements.txt", "Python"), ("go.mod", "Go"), ("pom.xml", "Java/Maven"),
           ("build.gradle", "Java/Gradle"), ("Cargo.toml", "Rust"),
           ("pubspec.yaml", "Dart/Flutter")])
        (.dir "w" 0 [.file "package.json" 1 .invalid]) :=
  detectProjectType_deterministic_single_marker _ _ _
    (List.Perm.refl _) (List.Perm.swap _ _ _) (by decide)

/-! ## Claim C1 -/

/-- C1: evaluation of the tree builder at a failing input.  For the root
`proj` containing the single non-ignored file `app.py`, pass one of
`buildDirectoryStructure` records both "." and "app.py", yet the built
structure is the bare root with no children and flattens to ["."]:
the source rewrites the top-level parent key "." to "./", which is never
a key of the node map, so no top-level entry is ever attached to the
root.  The round trip claimed by the specification fails. -/
theorem buildDirectoryStructure_drops_top_level :
    buildDirectoryStructure (.dir "proj" 0 [.file "app.py" 10 .invalid]) [".", "app.py"]
        = [⟨"proj", ".", true, 0, []⟩] ∧
    (collectNodes [] (.dir "proj" 0 [.file "app.py" 10 .invalid])).map (fun p => p.1)
        = [".", "app.py"] ∧
    flattenNodes (buildDirectoryStructure (.dir "proj" 0 [.file "app.py" 10 .invalid])
        [".", "app.py"]) = ["."] :=
  ⟨rfl, rfl, rfl⟩

/-! ## Claim C7 -/

/-- C7: evaluation of the file-inventory walk at a failing input.  The
callback of `analyzeFiles` tests `info.IsDir()` before `shouldSkip` and
returns nil for every directory, never `filepath.SkipDir`, so it
descends into `node_modules` and records `node_modules/index.js` in the
inventory.  The tree-building walk, by contrast, does prune the ignored
directory (its node map holds only "."). -/
theorem analyzeFiles_descends_into_ignored_dirs :
    (analyzeFiles (.dir "proj" 0 [.dir "node_modules" 0 [.file "index.js" 5 .invalid]])).map
        (fun f => f.path) = ["node_modules/index.js"] ∧
    (collectNodes [] (.dir "proj" 0 [.dir "node_modules" 0 [.file "index.js" 5 .invalid]])).map
        (fun p => p.1) = ["."] :=
  ⟨rfl, rfl⟩

/-! ## Claim C2 -/

/-- C2 counterexample: a `package.json` declaring `left-pad` twice under
`dependencies` yields one entry in the "production" group, not two —
`json.Unmarshal` into a Go map collapses the duplicate key before the
append loop runs. -/
theorem parsePackageJSON_duplicate_not_two_entries :
    parsePackageJSON
        (.dir "proj" 0 [.file "package.json" 100
          (.manifest ⟨[("left-pad", "1.0.0"), ("left-pad", "2.0.0")], [], [], []⟩)]) []
      = .ok [("production", [⟨"left-pad", "2.0.0", "production"⟩])] :=
  rfl

/-- C2 amended: a manifest declaring the same package name twice under
one classification yields exactly one entry for that name, carrying the
version of the last declaration (last-write-wins through the JSON map
decoding). -/
theorem parsePackageJSON_duplicate_last_wins (name v₁ v₂ : String) :
    parsePackageJSON
        (.dir "proj" 0 [.file "package.json" 100
          (.manifest ⟨[(name, v₁), (name, v₂)], [], [], []⟩)]) []
      = .ok [("production", [⟨name, v₂, "production"⟩])] := by
  have h₁ : mapInsert [] name v₁ = [(name, v₁)] := by simp [mapInsert]
  have h₂ : mapInsert [(name, v₁)] name v₂ = [(name, v₂)] := by simp [mapInsert]
  have hdec : decodeMap [(name, v₁), (name, v₂)] = [(name, v₂)] := by
    simp [decodeMap, h₁, h₂]
  have hread : readTopLevel (.dir "proj" 0 [.file "package.json" 100
      (.manifest ⟨[(name, v₁), (name, v₂)], [], [], []⟩)]) "package.json"
      = .ok (.manifest ⟨[(name, v₁), (name, v₂)], [], [], []⟩) := rfl
  simp only [parsePackageJSON, hread]
  rw [hdec]
  simp [appendGroup, depsAppend, decodeMap]

/-! ## Claim C3 -/

/-- C3 counterexample: a root whose `package.json` is present but
malformed makes `AnalyzeProject` return the parse error and no result —
the orchestrator treats the manifest failure as fatal
(`return nil, err`), not as a surfaced-but-non-fatal condition. -/
theorem analyzeProject_malformed_manifest_cex :
    AnalyzeProject (.dir "proj" 0 [.file "package.json" 10 .invalid]) indicators
      [".", "package.json"] = .error .parseError :=
  rfl

/-- C3 amended: whenever the detected type is Node.js and `package.json`
holds data `json.Unmarshal` rejects, `AnalyzeProject` fails with the
parse error and produces no result, for every iteration order of either
map. -/
theorem analyzeProject_malformed_manifest_fatal (root : FSEntry)
    (detOrder : List (String × String)) (treeOrder : List String)
    (hty : detectProjectType detOrder root = "Node.js")
    (hread : readTopLevel root "package.json" = .ok .invalid) :
    AnalyzeProject root detOrder treeOrder = .error .parseError := by
  simp [AnalyzeProject, hty, parseDependencies, parsePackageJSON, hread]

/-- Witness for the amended C3 at a concrete malformed manifest. -/
theorem analyzeProject_malformed_manifest_fatal_witness :
    AnalyzeProject (.dir "projw" 0 [.file "package.json" 7 .invalid]) indicators
      ["."] = .error .parseError :=
  analyzeProject_malformed_manifest_fatal _ indicators ["."] rfl rfl

/-! ## Claim C9 -/

/-- C9 counterexample: the walker's ignore policy also fires on the root
directory itself.  For the empty root directory named ".app" the first
walk callback returns `filepath.SkipDir`, the node map stays empty, and
the resulting structure is empty — not a single root `DirectoryNode` —
although the claim quantifies over every empty root directory. -/
theorem analyzeProject_hidden_root_no_root_node :
    AnalyzeProject (.dir ".app" 0 []) indicators []
      = .ok { name := ".app", type := "Unknown", dependencies := [], files := [],
              struct := [] } :=
  rfl

/-- C9 amended: for every empty root directory whose own name is not
caught by the ignore policy, `AnalyzeProject` succeeds with type
"Unknown", no dependency groups, an empty file inventory, and a single
root node with no children — for every iteration order of either map. -/
theorem analyzeProject_empty_dir_result (name : String) (sz : Int)
    (detOrder : List (String × String)) (treeOrder : List String)
    (hname : shouldSkip true name = false)
    (ht : treeOrder.Perm ((collectNodes [] (.dir name sz [])).map (fun p => p.1))) :
    AnalyzeProject (.dir name sz []) detOrder treeOrder
      = .ok { name := name, type := "Unknown", dependencies := [], files := [],
              struct := [⟨name, ".", true, 0, []⟩] } := by
  have hnodes : collectNodes [] (.dir name sz []) = [(".", ⟨name, ".", true, 0, []⟩)] := by
    simp [collectNodes, collectNodesList, hname]
  have hkeys : ((collectNodes [] (.dir name sz [])).map (fun p => p.1)) = ["."] := by
    rw [hnodes]; rfl
  have htord : treeOrder = ["."] := by
    rw [hkeys] at ht
    exact List.perm_singleton.mp ht
  subst htord
  have hdet : detectProjectType detOrder (.dir name sz []) = "Unknown" :=
    detect_unknown_of_absent _ detOrder (fun x _ => rfl)
  have hparse : parseDependencies (.dir name sz []) "Unknown" [] = .ok [] := rfl
  have hbuild : buildDirectoryStructure (.dir name sz []) ["."]
      = [⟨name, ".", true, 0, []⟩] := by
    simp only [buildDirectoryStructure, hnodes]
    rfl
  have hfiles : analyzeFiles (.dir name sz []) = [] := rfl
  simp [AnalyzeProject, hdet, hparse, hbuild, hfiles, FSEntry.name]

/-- Witness for the amended C9 at the root name "project". -/
theorem analyzeProject_empty_dir_result_witness :
    AnalyzeProject (.dir "project" 0 []) indicators ["."]
      = .ok { name := "project", type := "Unknown", dependencies := [], files := [],
              struct := [⟨"project", ".", true, 0, []⟩] } :=
  analyzeProject_empty_dir_result "project" 0 indicators ["."] rfl (List.Perm.refl _)

/-! ## Lemmas about occurrence and flattening -/

theorem occursIn_node (p nm pa : String) (d : Bool) (sz : Int)
    (ch : List DirectoryNode) :
    occursIn p ⟨nm, pa, d, sz, ch⟩ = (decide (p = pa) || occursInList p ch) := by
  simp [occursIn]

theorem occursInList_append (p : String) :
    ∀ (l₁ l₂ : List DirectoryNode),
      occursInList p (l₁ ++ l₂) = (occursInList p l₁ || occursInList p l₂) := by
  intro l₁
  induction l₁ with
  | nil => intro l₂; simp [occursInList]
  | cons c rest ih => intro l₂; simp [occursInList, ih, Bool.or_assoc]

theorem occursInList_eq_false (p : String) :
    ∀ (l : List DirectoryNode), (∀ n ∈ l, occursIn p n = false) →
      occursInList p l = false := by
  intro l
  induction l with
  | nil => intro _; rfl
  | cons c rest ih =>
      intro h
      simp [occursInList, h c (List.mem_cons_self _ _),
        ih (fun n hn => h n (List.mem_cons_of_mem _ hn))]

mutual
theorem mem_flattenNode (p : String) :
    ∀ (n : DirectoryNode), p ∈ flattenNode n ↔ occursIn p n = true
  | ⟨nm, q, d, s, ch⟩ => by
      simp [flattenNode, occursIn, mem_flattenNodes p ch]

theorem mem_flattenNodes (p : String) :
    ∀ (l : List DirectoryNode), p ∈ flattenNodes l ↔ occursInList p l = true
  | [] => by simp [flattenNodes, occursInList]
  | c :: rest => by
      simp [flattenNodes, occursInList, mem_flattenNode p c,
        mem_flattenNodes p rest]
end

/-! ## Shape of the node map produced by pass one -/

mutual
theorem collectNodes_shape :
    ∀ (cs : List String) (e : FSEntry) (kn : String × DirectoryNode),
      kn ∈ collectNodes cs e → kn.2.path = kn.1 ∧ kn.2.children = []
  | cs, .file n sz c, kn => by
      intro h
      simp only [collectNodes] at h
      split at h
      · exact absurd h (List.not_mem_nil _)
      · split at h
        · rw [List.mem_singleton.mp h]
          exact ⟨rfl, rfl⟩
        · rw [List.mem_singleton.mp h]
          exact ⟨rfl, rfl⟩
  | cs, .dir n sz children, kn => by
      intro h
      simp only [collectNodes] at h
      split at h
      · exact absurd h (List.not_mem_nil _)
      · split at h
        · rcases List.mem_cons.mp h with h | h
          · rw [h]; exact ⟨rfl, rfl⟩
          · exact collectNodesList_shape [] children kn h
        · rcases List.mem_cons.mp h with h | h
          · rw [h]; exact ⟨rfl, rfl⟩
          · exact collectNodesList_shape cs children kn h

theorem collectNodesList_shape :
    ∀ (cs : List String) (l : List FSEntry) (kn : String × DirectoryNode),
      kn ∈ collectNodesList cs l → kn.2.path = kn.1 ∧ kn.2.children = []
  | cs, [], kn => by intro h; exact absurd h (List.not_mem_nil _)
  | cs, c :: rest, kn => by
      intro h
      simp only [collectNodesList] at h
      rcases List.mem_append.mp h with h | h
      · exact collectNodes_shape (cs ++ [c.name]) c kn h
      · exact collectNodesList_shape cs rest kn h
end

/-! ## Pass-two attachment lemmas -/

theorem attachChild_lookup_none :
    ∀ (m : List (String × DirectoryNode)) (key : String) (c : DirectoryNode)
      (k : String), m.lookup k = none → (attachChild m key c).lookup k = none := by
  intro m key c
  induction m with
  | nil => intro k h; exact h
  | cons pr rest ih =>
      intro k h
      rcases pr with ⟨a, n⟩
      cases hk : (k == a) with
      | true =>
          simp only [List.lookup, hk] at h
          exact Option.noConfusion h
      | false =>
          simp only [List.lookup, hk] at h
          by_cases hak : a = key
          · subst hak
            simp only [attachChild, if_pos rfl, List.lookup, hk]
            exact h
          · simp only [attachChild, if_neg hak, List.lookup, hk]
            exact ih k h

theorem attachChild_mem :
    ∀ (m : List (String × DirectoryNode)) (key : String) (c : DirectoryNode)
      (kn : String × DirectoryNode), kn ∈ attachChild m key c →
      kn ∈ m ∨ ∃ n, (key, n) ∈ m ∧
        kn = (key, ⟨n.name, n.path, n.isDir, n.size, n.children ++ [c]⟩) := by
  intro m key c
  induction m with
  | nil => intro kn h; exact absurd h (List.not_mem_nil _)
  | cons pr rest ih =>
      intro kn h
      rcases pr with ⟨a, n⟩
      by_cases hak : a = key
      · subst hak
        simp only [attachChild, if_pos rfl] at h
        rcases List.mem_cons.mp h with h | h
        · right
          exact ⟨n, List.mem_cons_self _ _, by rw [h]⟩
        · left; exact List.mem_cons_of_mem _ h
      · simp only [attachChild, if_neg hak] at h
        rcases List.mem_cons.mp h with h | h
        · left; rw [h]; exact List.mem_cons_self _ _
        · rcases ih kn h with h | ⟨n₂, hmem, heq⟩
          · left; exact List.mem_cons_of_mem _ h
          · right; exact ⟨n₂, List.mem_cons_of_mem _ hmem, heq⟩

/-! ## Invariant of pass two for an orphan path -/

theorem secondPass_preserves (p : String) (hp : p ≠ ".") :
    ∀ (order : List String) (nodes : List (String × DirectoryNode))
      (acc : List DirectoryNode),
      nodes.lookup (parentKey p) = none →
      (∀ kn ∈ nodes, kn.1 ≠ p → occursIn p kn.2 = false) →
      (∀ n ∈ acc, occursIn p n = false) →
      ∀ n ∈ (order.foldl secondStep (nodes, acc)).2, occursIn p n = false := by
  intro order
  induction order with
  | nil => intro nodes acc h1 h2 h3; exact h3
  | cons q rest ih =>
      intro nodes acc h1 h2 h3
      rw [List.foldl_cons]
      cases hlq : nodes.lookup q with
      | none =>
          have hstep : secondStep (nodes, acc) q = (nodes, acc) := by
            simp [secondStep, hlq]
          rw [hstep]
          exact ih nodes acc h1 h2 h3
      | some v =>
          have hqv : (q, v) ∈ nodes := lookup_mem _ _ _ hlq
          by_cases hq : q = "."
          · subst hq
            have hstep : secondStep (nodes, acc) "." = (nodes, acc ++ [v]) := by
              simp [secondStep, hlq]
            rw [hstep]
            refine ih nodes (acc ++ [v]) h1 h2 ?_
            intro n hn
            rcases List.mem_append.mp hn with hn | hn
            · exact h3 n hn
            · rw [List.mem_singleton.mp hn]
              exact h2 (".", v) hqv (fun hh => hp hh.symm)
          · cases hlp : nodes.lookup (parentKey q) with
            | none =>
                have hstep : secondStep (nodes, acc) q = (nodes, acc) := by
                  simp [secondStep, hlq, hq, hlp]
                rw [hstep]
                exact ih nodes acc h1 h2 h3
            | some w =>
                have hqp : q ≠ p := by
                  intro hqp
                  rw [hqp, h1] at hlp
                  cases hlp
                have hvp : occursIn p v = false := h2 (q, v) hqv hqp
                have hstep : secondStep (nodes, acc) q =
                    (attachChild nodes (parentKey q) v, acc) := by
                  simp [secondStep, hlq, hq, hlp]
                rw [hstep]
                refine ih _ acc (attachChild_lookup_none _ _ _ _ h1) ?_ h3
                intro kn hkn hknp
                rcases attachChild_mem _ _ _ kn hkn with hkn | ⟨n₂, hmem, heq⟩
                · exact h2 kn hkn hknp
                · have hpq : parentKey q ≠ p := by
                    rw [heq] at hknp
                    exact hknp
                  have hold : occursIn p n₂ = false := h2 (parentKey q, n₂) hmem hpq
                  rw [heq]
                  rcases n₂ with ⟨nm, pa, dd, szz, ch⟩
                  rw [occursIn_node] at hold ⊢
                  rw [occursInList_append]
                  simp only [Bool.or_eq_false_iff] at hold ⊢
                  refine ⟨hold.1, hold.2, ?_⟩
                  simp [occursInList, hvp]

/-! ## Claim C4 -/

/-- C4 counterexample: in a run whose node map contains `main.go` but
not its computed parent key "./", the orphaned node is dropped with no
report: `AnalyzeProject` succeeds, returns no error or diagnostic of any
kind, and the flattened structure no longer contains the node — the
claim that an orphan is reported rather than silently dropped fails. -/
theorem orphan_silently_dropped_cex :
    AnalyzeProject (.dir "site" 0 [.file "main.go" 3 .invalid]) indicators
        [".", "main.go"]
      = .ok { name := "site", type := "Unknown", dependencies := [],
              files := [⟨"main.go", "main.go", ".go", 3, "Go"⟩],
              struct := [⟨"site", ".", true, 0, []⟩] } ∧
    ("main.go", (⟨"main.go", "main.go", false, 3, []⟩ : DirectoryNode)) ∈
      collectNodes [] (.dir "site" 0 [.file "main.go" 3 .invalid]) ∧
    (flattenNodes (buildDirectoryStructure (.dir "site" 0 [.file "main.go" 3 .invalid])
        [".", "main.go"])).contains "main.go" = false :=
  ⟨rfl, List.mem_cons_of_mem _ (List.mem_cons_self _ _), rfl⟩

/-- C4 amended: a node whose computed parent path is absent from the
flat mapping is silently dropped, not reported: for every root, every
iteration order of the node map, and every path `p` other than "." whose
parent key has no entry in the mapping, `p` never appears in the built
structure (and pass two has no error or report channel at all — the
attachment loop simply skips the node). -/
theorem orphan_not_reported_and_dropped (root : FSEntry) (order : List String)
    (p : String) (hp : p ≠ ".")
    (hparent : (collectNodes [] root).lookup (parentKey p) = none) :
    p ∉ flattenNodes (buildDirectoryStructure root order) := by
  intro hmem
  have hocc := (mem_flattenNodes p _).mp hmem
  have hall : ∀ n ∈ (List.foldl secondStep (collectNodes [] root, []) order).2,
      occursIn p n = false := by
    refine secondPass_preserves p hp order (collectNodes [] root) [] hparent ?_ ?_
    · intro kn hkn hknp
      have hshape := collectNodes_shape [] root kn hkn
      rcases kn with ⟨k, n⟩
      rcases n with ⟨nm, pa, dd, szz, ch⟩
      simp only at hshape hknp
      rw [occursIn_node, hshape.2, hshape.1]
      simp only [occursInList, Bool.or_false, decide_eq_false_iff_not]
      exact fun hh => hknp hh.symm
    · intro n hn
      exact absurd hn (List.not_mem_nil _)
  have hfalse : occursInList p (buildDirectoryStructure root order) = false :=
    occursInList_eq_false p _ hall
  rw [hfalse] at hocc
  exact Bool.noConfusion hocc

/-- Witness for the amended C4: the walked file `main.go`, whose parent
key "./" is absent from the node map, is missing from the flattened
structure. -/
theorem orphan_not_reported_and_dropped_witness :
    "main.go" ∉ flattenNodes (buildDirectoryStructure
        (.dir "site" 0 [.file "main.go" 3 .invalid]) [".", "main.go"]) :=
  orphan_not_reported_and_dropped _ _ "main.go" (by decide) rfl

/-! ## Claim C10 -/

/-- Predicate for C10: every group of the dependency map is keyed
"production" or "development" and every entry carries its group key as
its classification tag. -/
def GoodGroups (m : List (String × List Dependency)) : Prop :=
  ∀ kg ∈ m, (kg.1 = "production" ∨ kg.1 = "development") ∧
    ∀ d ∈ kg.2, d.type = kg.1

theorem depsAppend_good (m : List (String × List Dependency)) (k : String)
    (d : Dependency) (hm : GoodGroups m)
    (hk : k = "production" ∨ k = "development") (hd : d.type = k) :
    GoodGroups (depsAppend m k d) := by
  intro kg hkg
  cases hc : (m.any (fun p => p.1 = k)) with
  | true =>
      simp only [depsAppend, hc, if_true] at hkg
      rcases List.mem_map.mp hkg with ⟨pr, hpr, heq⟩
      by_cases hpk : pr.1 = k
      · rw [if_pos hpk] at heq
        subst heq
        refine ⟨by rw [hpk]; exact hk, ?_⟩
        intro d₂ hd₂
        rcases List.mem_append.mp hd₂ with h | h
        · exact (hm pr hpr).2 d₂ h
        · rw [List.mem_singleton.mp h, hd, hpk]
      · rw [if_neg hpk] at heq
        subst heq
        exact hm pr hpr
  | false =>
      simp only [depsAppend, hc, Bool.false_eq_true, if_false] at hkg
      rcases List.mem_append.mp hkg with h | h
      · exact hm kg h
      · rw [List.mem_singleton.mp h]
        exact ⟨hk, fun d₂ hd₂ => by rw [List.mem_singleton.mp hd₂, hd]⟩

theorem appendGroup_good :
    ∀ (l : List (String × String)) (m : List (String × List Dependency))
      (k : String), GoodGroups m → (k = "production" ∨ k = "development") →
      GoodGroups (appendGroup m k l) := by
  intro l
  induction l with
  | nil => intro m k hm _; exact hm
  | cons pr rest ih =>
      intro m k hm hk
      simp only [appendGroup, List.foldl_cons]
      have hstep : GoodGroups (depsAppend m k ⟨pr.1, pr.2, k⟩) :=
        depsAppend_good m k ⟨pr.1, pr.2, k⟩ hm hk rfl
      exact ih (depsAppend m k ⟨pr.1, pr.2, k⟩) k hstep hk

theorem parsePackageJSON_good (root : FSEntry)
    (m₀ m : List (String × List Dependency)) (hm : GoodGroups m₀)
    (h : parsePackageJSON root m₀ = .ok m) : GoodGroups m := by
  cases hr : readTopLevel root "package.json" with
  | error e => simp [parsePackageJSON, hr] at h
  | ok c =>
      cases c with
      | invalid => simp [parsePackageJSON, hr] at h
      | manifest mm =>
          simp only [parsePackageJSON, hr, Except.ok.injEq] at h
          rw [← h]
          exact appendGroup_good _ _ _
            (appendGroup_good _ _ _ hm (Or.inl rfl)) (Or.inr rfl)

theorem parseComposerJSON_good (root : FSEntry)
    (m₀ m : List (String × List Dependency)) (hm : GoodGroups m₀)
    (h : parseComposerJSON root m₀ = .ok m) : GoodGroups m := by
  cases hr : readTopLevel root "composer.json" with
  | error e => simp [parseComposerJSON, hr] at h
  | ok c =>
      cases c with
      | invalid => simp [parseComposerJSON, hr] at h
      | manifest mm =>
          simp only [parseComposerJSON, hr, Except.ok.injEq] at h
          rw [← h]
          exact appendGroup_good _ _ _
            (appendGroup_good _ _ _ hm (Or.inl rfl)) (Or.inr rfl)

theorem parseDependencies_good (root : FSEntry) (ty : String)
    (m₀ m : List (String × List Dependency)) (hm : GoodGroups m₀)
    (h : parseDependencies root ty m₀ = .ok m) : GoodGroups m := by
  by_cases h₁ : ty = "Node.js"
  · rw [parseDependencies, if_pos h₁] at h
    exact parsePackageJSON_good root m₀ m hm h
  · by_cases h₂ : ty = "PHP/Laravel"
    · rw [parseDependencies, if_neg h₁, if_pos h₂] at h
      exact parseComposerJSON_good root m₀ m hm h
    · rw [parseDependencies, if_neg h₁, if_neg h₂] at h
      cases h
      exact hm

/-- C10: invariant of every successful `AnalyzeProject` run — every
group of the resulting dependency map is keyed "production" or
"development", and every `Dependency` stored in the group for key `k`
carries `k` as its classification tag. -/
theorem dependency_groups_type_invariant (root : FSEntry)
    (detOrder : List (String × String)) (treeOrder : List String)
    (p : Project) (k : String) (g : List Dependency) (d : Dependency)
    (hok : AnalyzeProject root detOrder treeOrder = .ok p)
    (hkg : (k, g) ∈ p.dependencies) (hd : d ∈ g) :
    (k = "production" ∨ k = "development") ∧ d.type = k := by
  have hgood : GoodGroups p.dependencies := by
    cases hpd : parseDependencies root (detectProjectType detOrder root) [] with
    | error e =>
        rw [AnalyzeProject] at hok
        rw [hpd] at hok
        exact Except.noConfusion hok
    | ok deps =>
        rw [AnalyzeProject] at hok
        rw [hpd] at hok
        have hdeps : p.dependencies = deps := by
          cases hok
          rfl
        rw [hdeps]
        exact parseDependencies_good root _ [] deps
          (fun kg hkg₂ => absurd hkg₂ (List.not_mem_nil _)) hpd
  have := hgood (k, g) hkg
  exact ⟨this.1, this.2 d hd⟩

/-- Witness for C10: a concrete Node.js run with one production
dependency, instantiated at its only group and entry. -/
theorem dependency_groups_type_invariant_witness :
    ("production" = "production" ∨ "production" = "development") ∧
    (⟨"a", "1", "production"⟩ : Dependency).type = "production" :=
  dependency_groups_type_invariant
    (.dir "w" 0 [.file "package.json" 1 (.manifest ⟨[("a", "1")], [], [], []⟩)])
    indicators [".", "package.json"]
    { name := "w", type := "Node.js",
      dependencies := [("production", [⟨"a", "1", "production"⟩])],
      files := [⟨"package.json", "package.json", ".json", 1, "JSON"⟩],
      struct := [⟨"w", ".", true, 0, []⟩] }
    "production" [⟨"a", "1", "production"⟩] ⟨"a", "1", "production"⟩
    rfl (List.mem_cons_self _ _) (List.mem_cons_self _ _)
